import Mathlib

/-!
Shallow embedding of the WebTorrent download-and-stream server
(`server.js` / `torrentManager.js`) and verification of its specification.

Strings from the JavaScript source are modelled as `List Char`; JavaScript
numbers that are used integrally are modelled as `Int`/`Nat`, and the
fractional counters coming from the torrent engine as `Rat`.  Stateful code
is modelled by explicit state passing over a `World` record (torrent
registry, file system, clock), and observable side effects (directory
creation, torrent addition/destruction, file deletion, update callbacks)
are collected in an explicit effect trace.
-/

/-! ## Basic string model -/

/-- Whitespace test used by `String.prototype.trim` (ASCII part, which is
all the source ever feeds it). -/
def isWS (c : Char) : Bool :=
  c == ' ' || c == '\t' || c == '\n' || c == '\r' || c == '\x0b' || c == '\x0c'

/-- Left part of JavaScript `trim`. -/
def trimLeftWS (s : List Char) : List Char := s.dropWhile isWS

/-- Right part of JavaScript `trim`. -/
def trimRightWS (s : List Char) : List Char := (s.reverse.dropWhile isWS).reverse

/-- JavaScript `String.prototype.trim`. -/
def jsTrim (s : List Char) : List Char := trimRightWS (trimLeftWS s)

/-- Worker for `replaceAll`: scans the string left to right; the counter
skips the remainder of a pattern occurrence that has just been replaced, so
that replaced text is consumed and never rescanned, exactly like a global
regex replace in JavaScript. -/
def raGo (pat rep : List Char) : List Char → Nat → List Char
  | [], _ => []
  | _ :: cs, k + 1 => raGo pat rep cs k
  | c :: cs, 0 =>
    if pat.isPrefixOf (c :: cs) then rep ++ raGo pat rep cs (pat.length - 1)
    else c :: raGo pat rep cs 0

/-- JavaScript `s.replace(/pat/g, rep)` for a literal pattern: replaces
every occurrence, leftmost first, without rescanning the replacement. -/
def replaceAll (pat rep s : List Char) : List Char := raGo pat rep s 0

/-- JavaScript `s.replace(/pat/, rep)` (no `g` flag): replaces only the
first occurrence. -/
def replaceFirst (pat rep : List Char) : List Char → List Char
  | [] => []
  | c :: cs =>
    if pat.isPrefixOf (c :: cs) then rep ++ List.drop (pat.length - 1) cs
    else c :: replaceFirst pat rep cs

/-- Whether `pat` occurs as a contiguous substring of `s`. -/
def containsSub (pat : List Char) : List Char → Bool
  | [] => pat.isPrefixOf []
  | c :: cs => pat.isPrefixOf (c :: cs) || containsSub pat cs

/-- JavaScript `String.prototype.split` on a single character. -/
def splitOnChar (sep : Char) : List Char → List (List Char)
  | [] => [[]]
  | c :: cs =>
    let r := splitOnChar sep cs
    if c = sep then [] :: r
    else
      match r with
      | [] => [[c]]
      | h :: t => (c :: h) :: t

/-- Decimal digit test. -/
def isDigit (c : Char) : Bool := '0' ≤ c && c ≤ '9'

/-- Value of a decimal digit string, most significant digit first. -/
def digitsToNat (ds : List Char) : Nat :=
  ds.foldl (fun a c => a * 10 + (c.toNat - '0'.toNat)) 0

/-- JavaScript `parseInt(s, 10)`: skip leading whitespace, read an optional
sign and then the maximal run of decimal digits; `none` models `NaN`
(no digits at all). -/
def jsParseInt (s : List Char) : Option Int :=
  let t := s.dropWhile isWS
  let signAndRest : Int × List Char :=
    match t with
    | '-' :: r => (-1, r)
    | '+' :: r => (1, r)
    | _ => (1, t)
  let ds := signAndRest.2.takeWhile isDigit
  if ds.isEmpty then none else some (signAndRest.1 * (digitsToNat ds : Int))

/-- Decimal rendering of a natural number, as a character list. -/
def natChars (n : Nat) : List Char := (toString n).data

/-- Decimal rendering of an integer, as a character list. -/
def intChars (i : Int) : List Char := (toString i).data

/-- `path.join` as the source uses it (joining two non-empty relative
segments with a separator). -/
def pathJoin (a b : List Char) : List Char := a ++ '/' :: b

/-! ## HTML-entity decoding (`decodeHtmlEntities`, `server.js` 210–219) -/

def entAmp : List Char := "&amp;".data
def entLt : List Char := "&lt;".data
def entGt : List Char := "&gt;".data
def entQuot : List Char := "&quot;".data
def entNum39 : List Char := "&#39;".data
def entX2F : List Char := "&#x2F;".data

/-- `decodeHtmlEntities` from `server.js`: six sequential global
replacements, in source order. -/
def decodeHtmlEntities (s : List Char) : List Char :=
  replaceAll entX2F ['/']
    (replaceAll entNum39 ['\'']
      (replaceAll entQuot ['"']
        (replaceAll entGt ['>']
          (replaceAll entLt ['<']
            (replaceAll entAmp ['&'] s)))))

/-! ## Magnet-link validation (`server.js` 303–306) -/

/-- Hexadecimal digit test (`[a-fA-F0-9]`). -/
def isHexDigit (c : Char) : Bool :=
  ('0' ≤ c && c ≤ '9') || ('a' ≤ c && c ≤ 'f') || ('A' ≤ c && c ≤ 'F')

/-- Case-insensitive literal match of `p` against the start of `s`,
as the `i` flag of a JavaScript regex gives for a literal run. -/
def ciStarts : List Char → List Char → Bool
  | [], _ => true
  | _ :: _, [] => false
  | p :: ps, c :: cs => (p.toLower == c.toLower) && ciStarts ps cs

/-- The literal part of the validation regex. -/
def magnetLit : List Char := "magnet:?xt=urn:btih:".data

/-- Forty hex digits at the start of `s`. -/
def hex40 (s : List Char) : Bool :=
  (s.take 40).length == 40 && (s.take 40).all isHexDigit

/-- `magnetRegex.test`, i.e. `/^magnet:\?xt=urn:btih:[a-fA-F0-9]{40}/i`:
the literal run is matched case-insensitively (the `i` flag), followed by
forty hex digits; anything may follow. -/
def magnetRegexTest (s : List Char) : Bool :=
  ciStarts magnetLit s && hex40 (s.drop 20)

/-- The validation pattern exactly as the specification words it: the
literal characters `magnet:?xt=urn:btih:` (a case-sensitive match of the
literal part) followed by forty hex characters.  Stated from the spec's
words, for comparison with the source's case-insensitive test. -/
def claimMagnetPattern (s : List Char) : Bool :=
  magnetLit.isPrefixOf s && hex40 (s.drop 20)

/-! ## Data model (`torrentManager.js`) -/

/-- A file of the torrent, as exposed by the torrent engine
(`torrent.files[i]`). -/
structure TFile where
  name : List Char
  path : List Char
  length : Int
deriving DecidableEq

/-- The torrent handle returned by `client.add`: the engine-owned object
whose counters the manager reads.  The embedding treats its fields as the
values the engine currently reports. -/
structure TorrentHandle where
  name : List Char
  infoHash : List Char
  files : List TFile
  length : Rat
  downloaded : Rat
  downloadSpeed : Rat
  uploadSpeed : Rat
  progress : Rat
  ratio : Rat
  numPeers : Nat
  destroyed : Bool
deriving DecidableEq

/-- One entry of `status.files` (built in `setupTorrentListeners` and
`updateTorrentStatus`). -/
structure FileEntry where
  name : List Char
  path : List Char
  length : Int
  index : Nat
  isVideo : Bool
  canStream : Bool
  streamUrl : List Char
  downloadUrl : List Char
deriving DecidableEq

/-- The status object created in `startTorrent` and mutated by the
listeners.  Fields the JavaScript adds only later (`ratio`, `lastUpdated`)
are explicit options, `none` meaning the field is absent. -/
structure TorrentStatus where
  torrentId : List Char
  status : List Char
  progress : Rat
  downloadSpeed : Rat
  uploadSpeed : Rat
  peers : Nat
  downloaded : Rat
  totalSize : Rat
  timeRemaining : List Char
  fileName : List Char
  streamingUrl : Option (List Char)
  canStream : Bool
  downloadDir : List Char
  downloadPath : List Char
  fresh : Bool
  startTime : Nat
  error : Option (List Char)
  files : List FileEntry
  infoHash : Option (List Char)
  ratio : Option Rat
  lastUpdated : Option Nat
deriving DecidableEq

/-- The per-torrent record stored in `activeTorrents`
(`{ torrent, status, updateTimer, downloadPath }`).  `updateTimer` records
whether the periodic update interval is installed. -/
structure TorrentInfo where
  torrent : TorrentHandle
  status : TorrentStatus
  updateTimer : Bool
  downloadPath : List Char
deriving DecidableEq

/-- The `TorrentManager` fields that the claims observe.  `activeTorrents`
is the insertion-ordered map, `onUpdate` whether an update callback is
registered, `nextId` the fresh-id supply standing in for
`crypto.randomBytes(8).toString('hex')` (the code only relies on ids being
fresh). -/
structure Manager where
  activeTorrents : List (List Char × TorrentInfo)
  onUpdate : Bool
  nextId : Nat
deriving DecidableEq

/-- World state: the manager, the file system (the set of existing paths,
an entry standing for the file tree rooted there), and the clock
(`Date.now()`). -/
structure World where
  mgr : Manager
  fs : List (List Char)
  now : Nat
deriving DecidableEq

/-- Observable side effects of the operations. -/
inductive Effect where
  | mkdir (path : List Char)
  | clientAdd (magnet : List Char) (path : List Char)
  | destroyTorrent (torrentId : List Char) (destroyStore : Bool)
  | rmrf (path : List Char)
  | update (torrentId : List Char) (st : TorrentStatus)
  | scheduleRemoval (torrentId : List Char) (ms : Nat)
deriving DecidableEq

/-- The error taxonomy of the boundary: the validation throw in
`handleStartTorrent` is an `invalidInput`, the `not found` throws of the
manager are `notFound`. -/
inductive MgrError where
  | notFound (torrentId : List Char)
  | invalidInput (msg : List Char)
deriving DecidableEq

deriving instance DecidableEq for Except

/-- Outcome of a stateful operation: final world, effect trace, result. -/
structure MOut (α : Type) where
  w : World
  fx : List Effect
  res : Except MgrError α
deriving DecidableEq

/-- Result shape of `startTorrent`/`stopTorrent`. -/
structure OpResult where
  torrentId : List Char
  status : List Char
deriving DecidableEq

/-- Result shape of `deleteTorrent`. -/
structure DelResult where
  torrentId : List Char
  name : List Char
  deleted : Bool
deriving DecidableEq

/-- `Map.prototype.get` on the insertion-ordered association list. -/
def mapGet {β : Type} : List (List Char × β) → List Char → Option β
  | [], _ => none
  | (k', v) :: t, k => if k' = k then some v else mapGet t k

/-- `Map.prototype.set`: overwrite in place if present, else append. -/
def mapSet {β : Type} : List (List Char × β) → List Char → β → List (List Char × β)
  | [], k, v => [(k, v)]
  | (k', v') :: t, k, v => if k' = k then (k, v) :: t else (k', v') :: mapSet t k v

/-- Remove a path from the modelled file system (`fs.rmSync` with
`recursive: true` on the tree the entry stands for). -/
def fsRemove (fs : List (List Char)) (p : List Char) : List (List Char) :=
  fs.filter (fun q => decide (q ≠ p))

/-! ## Video/MIME helpers (`isVideoFile`, `getMimeType`) -/

def toLowerStr (s : List Char) : List Char := s.map Char.toLower

/-- The suffix starting at the last `.` of `s`, if any. -/
def lastDotSuffix : List Char → Option (List Char)
  | [] => none
  | c :: cs =>
    match lastDotSuffix cs with
    | some r => some r
    | none => if c = '.' then some (c :: cs) else none

/-- `filename.toLowerCase().substring(filename.lastIndexOf('.'))`: the
lowercased extension, or the whole lowercased name when there is no dot
(`substring(-1)` clamps to the start of the string). -/
def extOf (s : List Char) : List Char :=
  (lastDotSuffix (toLowerStr s)).getD (toLowerStr s)

def videoExtensions : List (List Char) :=
  [".mp4".data, ".mkv".data, ".avi".data, ".mov".data, ".wmv".data, ".flv".data,
   ".webm".data, ".m4v".data, ".mpg".data, ".mpeg".data, ".3gp".data]

/-- `TorrentManager.isVideoFile`. -/
def isVideoFile (filename : List Char) : Bool :=
  videoExtensions.contains (extOf filename)

/-- `getMimeType` from `server.js`. -/
def getMimeType (filename : List Char) : List Char :=
  let ext := extOf filename
  if ext = ".mp4".data then "video/mp4".data
  else if ext = ".mkv".data then "video/x-matroska".data
  else if ext = ".avi".data then "video/x-msvideo".data
  else if ext = ".mov".data then "video/quicktime".data
  else if ext = ".wmv".data then "video/x-ms-wmv".data
  else if ext = ".flv".data then "video/x-flv".data
  else if ext = ".webm".data then "video/webm".data
  else if ext = ".m4v".data then "video/x-m4v".data
  else if ext = ".mpg".data then "video/mpeg".data
  else if ext = ".mpeg".data then "video/mpeg".data
  else if ext = ".3gp".data then "video/3gpp".data
  else if ext = ".mp3".data then "audio/mpeg".data
  else if ext = ".wav".data then "audio/wav".data
  else if ext = ".ogg".data then "audio/ogg".data
  else if ext = ".flac".data then "audio/flac".data
  else "application/octet-stream".data

/-! ## TorrentManager operations -/

/-- The `torrent.files.map((file, index) => ...)` conversion used by the
`metadata` listener and by `updateTorrentStatus`. -/
def fileEntriesGo (tid : List Char) : Nat → List TFile → List FileEntry
  | _, [] => []
  | i, f :: fs =>
    { name := f.name, path := f.path, length := f.length, index := i,
      isVideo := isVideoFile f.name, canStream := true,
      streamUrl := "/stream/".data ++ tid ++ '/' :: natChars i,
      downloadUrl := "/api/download/".data ++ tid ++ '/' :: natChars i }
      :: fileEntriesGo tid (i + 1) fs

def fileEntriesOf (tid : List Char) (files : List TFile) : List FileEntry :=
  fileEntriesGo tid 0 files

/-- The fresh torrent id (`generateTorrentId`), drawn from the supply. -/
def generateTorrentId (n : Nat) : List Char := natChars n

/-- The `statusData` object built at the start of `startTorrent`. -/
def initialStatus (tid dlPath : List Char) (fresh : Bool) (now : Nat) : TorrentStatus :=
  { torrentId := tid, status := "starting".data, progress := 0,
    downloadSpeed := 0, uploadSpeed := 0, peers := 0, downloaded := 0,
    totalSize := 0, timeRemaining := "Unknown".data, fileName := "Unknown".data,
    streamingUrl := none, canStream := false, downloadDir := dlPath,
    downloadPath := dlPath, fresh := fresh, startTime := now, error := none,
    files := [], infoHash := none, ratio := none, lastUpdated := none }

/-- Store a torrent record (registry update part of the operations). -/
def setInfo (w : World) (tid : List Char) (info : TorrentInfo) : World :=
  { w with mgr := { w.mgr with activeTorrents := mapSet w.mgr.activeTorrents tid info } }

/-- `broadcastUpdate`: invoke the registered callback, if any. -/
def broadcastUpdate (w : World) (tid : List Char) (st : TorrentStatus) : List Effect :=
  if w.mgr.onUpdate then [Effect.update tid st] else []

/-- `TorrentManager.startTorrent`.  The handle `h` is the object the
engine library returns from `client.add` (modelled as a parameter; the
call itself is recorded in the trace and modelled as succeeding). -/
def startTorrent (h : TorrentHandle) (magnetUri downloadPath : List Char)
    (fresh : Bool) (w : World) : MOut OpResult :=
  let tid := generateTorrentId w.mgr.nextId
  let dirExists := w.fs.contains downloadPath
  let mkfx : List Effect := if dirExists then [] else [Effect.mkdir downloadPath]
  let fs' := if dirExists then w.fs else downloadPath :: w.fs
  let st := initialStatus tid downloadPath fresh w.now
  let info : TorrentInfo :=
    { torrent := h, status := st, updateTimer := true, downloadPath := downloadPath }
  { w := { w with
      mgr := { w.mgr with
        activeTorrents := mapSet w.mgr.activeTorrents tid info,
        nextId := w.mgr.nextId + 1 },
      fs := fs' },
    fx := mkfx ++ [Effect.clientAdd magnetUri downloadPath],
    res := .ok { torrentId := tid, status := "started".data } }

/-- JavaScript `%` on numbers (floating-point remainder), on the
non-negative rationals `formatTime` feeds it. -/
def jsFmod (a b : Rat) : Rat := a - b * ((a / b).floor : Rat)

/-- `TorrentManager.formatTime` (the `isFinite` guard cannot fire on
rationals). -/
def formatTime (seconds : Rat) : List Char :=
  if seconds < 0 then "Unknown".data
  else
    let hours : Int := (seconds / 3600).floor
    let minutes : Int := ((jsFmod seconds 3600) / 60).floor
    let secs : Int := (jsFmod seconds 60).floor
    if hours > 0 then
      intChars hours ++ "h ".data ++ intChars minutes ++ "m ".data ++ intChars secs ++ "s".data
    else if minutes > 0 then
      intChars minutes ++ "m ".data ++ intChars secs ++ "s".data
    else
      intChars secs ++ "s".data

/-- `TorrentManager.updateTorrentStatus`: recompute the snapshot from the
engine handle, resync the file list when its length changed, and broadcast.
Returns the new status and the emitted effects. -/
def updateTorrentStatus (w : World) (tid : List Char) (info : TorrentInfo) :
    TorrentStatus × List Effect :=
  let t := info.torrent
  let st0 := info.status
  let files' :=
    if t.files.length > 0 && st0.files.length != t.files.length
    then fileEntriesOf tid t.files else st0.files
  let st1 := { st0 with
    progress := t.progress * 100, downloadSpeed := t.downloadSpeed,
    uploadSpeed := t.uploadSpeed, downloaded := t.downloaded,
    totalSize := t.length, peers := t.numPeers, ratio := some t.ratio,
    files := files' }
  let st2 :=
    if t.downloadSpeed > 0 ∧ t.progress < 1 then
      { st1 with timeRemaining := formatTime ((t.length - t.downloaded) / t.downloadSpeed) }
    else if t.progress ≥ 1 then
      { st1 with timeRemaining := "Complete".data, status := "seeding".data }
    else
      { st1 with timeRemaining := "Unknown".data }
  let st3 := { st2 with lastUpdated := some w.now }
  (st3, broadcastUpdate w tid st3)

/-- The events of the engine's torrent emitter that `setupTorrentListeners`
deals with.  `tick` is the firing of the periodic `updateTimer` interval;
`blockDownloaded` is the engine's per-block `download` event, for which the
source registers no listener. -/
inductive TorrentEvent where
  | metadata
  | ready
  | wire
  | tick
  | done
  | errored (msg : List Char)
  | warning (msg : List Char)
  | blockDownloaded
deriving DecidableEq

/-- The listeners installed by `setupTorrentListeners`, as one event
dispatcher over the stored record. -/
def handleTorrentEvent (w : World) (tid : List Char) (ev : TorrentEvent) :
    World × List Effect :=
  match mapGet w.mgr.activeTorrents tid with
  | none => (w, [])
  | some info =>
    match ev with
    | .metadata =>
      let t := info.torrent
      let st := { info.status with
        status := "downloading".data, fileName := t.name, totalSize := t.length,
        infoHash := some t.infoHash, files := fileEntriesOf tid t.files }
      (setInfo w tid { info with status := st }, broadcastUpdate w tid st)
    | .ready =>
      let st := { info.status with canStream := true }
      (setInfo w tid { info with status := st }, broadcastUpdate w tid st)
    | .wire => (w, [])
    | .warning _ => (w, [])
    | .blockDownloaded => (w, [])
    | .tick =>
      if info.updateTimer then
        let r := updateTorrentStatus w tid info
        (setInfo w tid { info with status := r.1 }, r.2)
      else (w, [])
    | .done =>
      let st := { info.status with status := "completed".data, progress := 100 }
      (setInfo w tid { info with status := st, updateTimer := false },
       broadcastUpdate w tid st)
    | .errored msg =>
      let st := { info.status with status := "error".data, error := some msg }
      (setInfo w tid { info with status := st, updateTimer := false },
       broadcastUpdate w tid st)

/-- `TorrentManager.stopTorrent`.  `torrent.destroy({ destroyStore: false })`
is recorded in the trace (with its flag) and modelled as succeeding; the
deferred `activeTorrents.delete` is the scheduled-removal effect, so the
record is still registered when the promise resolves. -/
def stopTorrent (w : World) (tid : List Char) : MOut OpResult :=
  match mapGet w.mgr.activeTorrents tid with
  | none => { w := w, fx := [], res := .error (.notFound tid) }
  | some info =>
    let stStopping := { info.status with status := "stopping".data }
    let fx1 := broadcastUpdate w tid stStopping
    let stStopped := { stStopping with
      status := "stopped".data, downloadSpeed := 0, uploadSpeed := 0, peers := 0 }
    let info' : TorrentInfo := { info with
      torrent := { info.torrent with destroyed := true },
      status := stStopped, updateTimer := false }
    { w := setInfo w tid info',
      fx := fx1 ++ [Effect.destroyTorrent tid false] ++ broadcastUpdate w tid stStopped
            ++ [Effect.scheduleRemoval tid 2000],
      res := .ok { torrentId := tid, status := "stopped".data } }

/-- `TorrentManager.deleteTorrent`: stop, then optionally delete
`path.join(downloadPath, torrent.name)` if it exists (`downloadPath &&` is
the JavaScript truthiness guard). -/
def deleteTorrent (w : World) (tid : List Char) (deleteFiles : Bool) : MOut DelResult :=
  match mapGet w.mgr.activeTorrents tid with
  | none => { w := w, fx := [], res := .error (.notFound tid) }
  | some info =>
    let torrentName := info.torrent.name
    let s := stopTorrent w tid
    let fullPath := pathJoin info.downloadPath torrentName
    if deleteFiles && !info.downloadPath.isEmpty then
      if s.w.fs.contains fullPath then
        { w := { s.w with fs := fsRemove s.w.fs fullPath },
          fx := s.fx ++ [Effect.rmrf fullPath],
          res := .ok { torrentId := tid, name := torrentName, deleted := true } }
      else
        { w := s.w, fx := s.fx,
          res := .ok { torrentId := tid, name := torrentName, deleted := true } }
    else
      { w := s.w, fx := s.fx,
        res := .ok { torrentId := tid, name := torrentName, deleted := true } }

/-- `TorrentManager.getTorrent`: the stored status, or `null`
(the boundary's `NotFound` result) for an unknown id. -/
def getTorrent (w : World) (tid : List Char) : Option TorrentStatus :=
  (mapGet w.mgr.activeTorrents tid).map (fun i => i.status)

/-- `TorrentManager.getAllTorrents`. -/
def getAllTorrents (w : World) : List TorrentStatus :=
  w.mgr.activeTorrents.map (fun p => p.2.status)

/-- `TorrentManager.getTorrentFiles`: `[]` for an unknown id, otherwise
`status.files` (always an array in the embedding, so the `|| []` fallback
is the identity). -/
def getTorrentFiles (w : World) (tid : List Char) : List FileEntry :=
  match mapGet w.mgr.activeTorrents tid with
  | none => []
  | some info => info.status.files

/-! ## Server configuration and handlers (`server.js`) -/

/-- Modelling constant for `process.cwd()`. -/
def cwdPath : List Char := "/srv/app".data

/-- `CONFIG.DOWNLOADS_DIR`. -/
def DOWNLOADS_DIR : List Char := pathJoin cwdPath "downloads".data

/-- `CONFIG.TEMP_DIR`. -/
def TEMP_DIR : List Char := pathJoin cwdPath "temp".data

/-- `handleStartTorrent`: requires a magnet (`!magnet` throws), trims and
HTML-entity-decodes it, tests the validation regex, then picks the download
path and delegates to `startTorrent`.  A validation throw leaves the world
untouched and produces no effect. -/
def handleStartTorrent (magnet : Option (List Char)) (fresh : Bool)
    (h : TorrentHandle) (w : World) : MOut OpResult :=
  match magnet with
  | none => { w := w, fx := [], res := .error (.invalidInput "Magnet link is required".data) }
  | some mg =>
    if mg.isEmpty then
      { w := w, fx := [], res := .error (.invalidInput "Magnet link is required".data) }
    else
      let cleanMagnet := decodeHtmlEntities (jsTrim mg)
      if magnetRegexTest cleanMagnet then
        let downloadPath :=
          if fresh then pathJoin TEMP_DIR ("session-".data ++ natChars w.now)
          else DOWNLOADS_DIR
        startTorrent h cleanMagnet downloadPath fresh w
      else
        { w := w, fx := [],
          res := .error (.invalidInput
            "Invalid or malformed magnet link. It must be a valid info-hash magnet link.".data) }

/-- The headers of a `/stream/:torrentId/:fileIndex` response that the
specification talks about.  `none` in a numeric header models `NaN`. -/
structure StreamResponse where
  statusCode : Nat
  contentLength : Option Int
  contentRange : Option (List Char)
  contentType : Option (List Char)
deriving DecidableEq

/-- The `Content-Range` header value of a 206 response. -/
def crHeader (s e fsize : Int) : List Char :=
  "bytes ".data ++ intChars s ++ '-' :: intChars e ++ '/' :: intChars fsize

/-- `torrentInfo.torrent.files[parseInt(fileIndex)]`: `undefined` (none)
when `parseInt` gives `NaN` or the index is out of bounds. -/
def fileAt (info : TorrentInfo) (fileIndex : List Char) : Option TFile :=
  match jsParseInt fileIndex with
  | none => none
  | some k => if k < 0 then none else info.torrent.files[k.toNat]?

/-- `range.replace(/bytes=/, '').split('-')`. -/
def rangeParts (r : List Char) : List (List Char) :=
  splitOnChar '-' (replaceFirst "bytes=".data [] r)

/-- `parts[1] ? parseInt(parts[1], 10) : fileSize - 1` (the default also
fires on the empty string, which is falsy). -/
def rangeEnd (parts : List (List Char)) (fileSize : Int) : Option Int :=
  match parts[1]? with
  | some l => if l.isEmpty then some (fileSize - 1) else jsParseInt l
  | none => some (fileSize - 1)

/-- The `GET /stream/:torrentId/:fileIndex` route: 404 when the torrent is
unknown or `files[parseInt(fileIndex)]` is undefined; 200 with the full
length for a request without a `Range` header; otherwise
`range.replace(/bytes=/, '').split('-')` is parsed and a 206 response with
`Content-Range` and `Content-Length = end - start + 1` is produced. -/
def streamHandler (w : World) (torrentId fileIndex : List Char)
    (range : Option (List Char)) : StreamResponse :=
  match mapGet w.mgr.activeTorrents torrentId with
  | none => { statusCode := 404, contentLength := none, contentRange := none, contentType := none }
  | some info =>
    match fileAt info fileIndex with
    | none => { statusCode := 404, contentLength := none, contentRange := none, contentType := none }
    | some file =>
      let fileSize : Int := file.length
      let mimeType := getMimeType file.name
      match range with
      | none =>
        { statusCode := 200, contentLength := some fileSize,
          contentRange := none, contentType := some mimeType }
      | some r =>
        let parts := rangeParts r
        let startN : Option Int := jsParseInt (parts.headD [])
        let endN : Option Int := rangeEnd parts fileSize
        { statusCode := 206,
          contentLength :=
            match startN, endN with
            | some s, some e => some (e - s + 1)
            | _, _ => none,
          contentRange :=
            match startN, endN with
            | some s, some e => some (crHeader s e fileSize)
            | _, _ => none,
          contentType := some mimeType }

/-! ## Piece store

Modelled from the spec: the engine internals (Piece Store, piece
verification, the `downloaded` counter) live in the external torrent
library and are not under the repository's sources, which only read
`torrent.downloaded`; the store is therefore modelled from §3/§4.1 of the
specification: per-piece verified flags, a `downloaded` counter credited
exactly when a piece passes hash verification. -/

/-- Modelled from the spec: the per-torrent piece store — each piece its
length and whether it has been hash-verified, plus the running
`downloaded` byte counter. -/
structure PieceStore where
  pieces : List (Nat × Bool)
  downloaded : Nat
deriving DecidableEq

/-- Sum of the lengths of the verified pieces. -/
def sumVerified (ps : PieceStore) : Nat :=
  (ps.pieces.map (fun p => if p.2 then p.1 else 0)).sum

/-- Modelled from the spec: the store of a freshly started torrent — no
piece verified, nothing downloaded. -/
def initStore (lens : List Nat) : PieceStore :=
  { pieces := lens.map (fun l => (l, false)), downloaded := 0 }

/-- Modelled from the spec: the store's observable transition — a piece
that was not yet verified passes hash verification, its length is credited
to `downloaded`.  (Block writes and failed verifications leave both the
verified bitmap and the counter unchanged, so they are invisible at this
granularity.) -/
inductive PieceStep : PieceStore → PieceStore → Prop where
  | verify (ps : PieceStore) (i : Nat) (h : i < ps.pieces.length)
      (hv : (ps.pieces.get ⟨i, h⟩).2 = false) :
      PieceStep ps
        { pieces := ps.pieces.set i ((ps.pieces.get ⟨i, h⟩).1, true),
          downloaded := ps.downloaded + (ps.pieces.get ⟨i, h⟩).1 }

/-- Reachability along piece-store transitions. -/
def PieceReach : PieceStore → PieceStore → Prop :=
  Relation.ReflTransGen PieceStep

/-! ## HTML-entity encoding (spec side, for the normalization claim) -/

/-- Which decoding pass handles a character (1–6 in the source's order for
the six decoded characters, 0 for every other character). -/
def passIndex (c : Char) : Nat :=
  if c = '&' then 1 else if c = '<' then 2 else if c = '>' then 3
  else if c = '"' then 4 else if c = '\'' then 5 else if c = '/' then 6 else 0

/-- The entity a special character encodes to. -/
def expansionOf (c : Char) : List Char :=
  if c = '&' then entAmp else if c = '<' then entLt else if c = '>' then entGt
  else if c = '"' then entQuot else if c = '\'' then entNum39
  else if c = '/' then entX2F else [c]

/-- Stage-`j` encoding of one character: still encoded iff its pass has not
run yet (pass indices above `j`). -/
def encStage (j : Nat) (c : Char) : List Char :=
  if j < passIndex c then expansionOf c else [c]

/-- Stage-`j` encoding of a string. -/
def encodeStage (j : Nat) : List Char → List Char
  | [] => []
  | c :: cs => encStage j c ++ encodeStage j cs

/-- The HTML-entity-encoded form of a string: every `&`, `<`, `>`, `"`,
`'`, `/` replaced by its entity.  This is the claim's encoding, not a
source function. -/
def htmlEncode (s : List Char) : List Char := encodeStage 0 s

/-- `s` contains none of the six entity strings as a substring. -/
def noEntities (s : List Char) : Bool :=
  !(containsSub entAmp s) && !(containsSub entLt s) && !(containsSub entGt s) &&
  !(containsSub entQuot s) && !(containsSub entNum39 s) && !(containsSub entX2F s)

/-- `pat` already disagrees with `x` inside `x` itself: whatever follows
`x`, `pat` cannot match at its start. -/
def mismatchWithin : List Char → List Char → Bool
  | [], _ => false
  | _ :: _, [] => false
  | p :: ps, y :: ys => if p = y then mismatchWithin ps ys else true

/-- No suffix position of the chunk `e` can start a `pat` match, wherever
the chunk is placed. -/
def chunkSafe (pat e : List Char) : Bool :=
  (List.range e.length).all (fun i => mismatchWithin pat (e.drop i))

/-- Reversed stage-`j` encoding, processing the string from the right. -/
def encRev (j : Nat) : List Char → List Char
  | [] => []
  | c :: cs => (encStage j c).reverse ++ encRev j cs

/-! ## Concrete sample data for the closed instances -/

/-- Whether an operation result is a success. -/
def isOkB {α : Type} : Except MgrError α → Bool
  | .ok _ => true
  | .error _ => false

def sampleFile0 : TFile :=
  { name := "video.mp4".data, path := "Movie/video.mp4".data, length := 1000 }

def sampleFile1 : TFile :=
  { name := "notes.txt".data, path := "Movie/notes.txt".data, length := 50 }

def sampleHandle : TorrentHandle :=
  { name := "Movie".data,
    infoHash := "aabbccddeeff00112233445566778899aabbccdd".data,
    files := [sampleFile0, sampleFile1],
    length := 1050, downloaded := 0, downloadSpeed := 0, uploadSpeed := 0,
    progress := 0, ratio := 0, numPeers := 0, destroyed := false }

/-- A world with no torrent registered, an update callback registered
(the server installs one at startup), and an empty file system. -/
def emptyWorld : World :=
  { mgr := { activeTorrents := [], onUpdate := true, nextId := 0 },
    fs := [], now := 41 }

def sampleTid : List Char := "7".data

/-- A registered record whose file list has not been populated yet. -/
def sampleInfo : TorrentInfo :=
  { torrent := sampleHandle,
    status := initialStatus sampleTid DOWNLOADS_DIR false 3,
    updateTimer := true, downloadPath := DOWNLOADS_DIR }

/-- A world with one registered torrent and its download tree on disk. -/
def sampleWorld : World :=
  { mgr := { activeTorrents := [(sampleTid, sampleInfo)], onUpdate := true, nextId := 8 },
    fs := [DOWNLOADS_DIR, pathJoin DOWNLOADS_DIR "Movie".data], now := 44 }

/-- The claim-refuting start request: the scheme in upper case, followed by
a well-formed 40-hex info-hash. -/
def cexUpperMagnet : List Char :=
  "MAGNET:?xt=urn:btih:aaaaaaaaaaaaaaaaaaaaaaaaaaaaaaaaaaaaaaaa".data

/-- The normalization-refuting magnet: a valid magnet whose display-name
parameter contains a literal `&amp;`. -/
def cexAmpMagnet : List Char :=
  "magnet:?xt=urn:btih:aaaaaaaaaaaaaaaaaaaaaaaaaaaaaaaaaaaaaaaa&dn=a&amp;b".data

/-- An entity-free magnet (it contains `&`, but no entity string). -/
def plainMagnet : List Char :=
  "magnet:?xt=urn:btih:aaaaaaaaaaaaaaaaaaaaaaaaaaaaaaaaaaaaaaaa&dn=hello".data

/-- A magnet containing the entity `&lt;` (but no `&amp;`): the decoder's
later passes rescan the first pass's output, so this one still behaves
identically to its encoded form. -/
def ltMagnet : List Char :=
  "magnet:?xt=urn:btih:aaaaaaaaaaaaaaaaaaaaaaaaaaaaaaaaaaaaaaaa&dn=a&lt;b".data

/-! ## Registry helper lemmas -/

theorem mapGet_mapSet_self {β : Type} (m : List (List Char × β)) (k : List Char) (v : β) :
    mapGet (mapSet m k v) k = some v := by
  induction m with
  | nil => simp [mapSet, mapGet]
  | cons p t ih =>
    obtain ⟨k', v'⟩ := p
    by_cases h : k' = k
    · simp [mapSet, h, mapGet]
    · simp [mapSet, h, mapGet, ih]

theorem stopTorrent_fs (w : World) (tid : List Char) :
    (stopTorrent w tid).w.fs = w.fs := by
  unfold stopTorrent
  cases h : mapGet w.mgr.activeTorrents tid <;> simp [setInfo]

theorem not_mem_fsRemove (fs : List (List Char)) (p : List Char) :
    p ∉ fsRemove fs p := by
  simp [fsRemove, List.mem_filter]

/-! ## C6 — `status(torrentId)` -/

/-- C6: `getTorrent` returns the stored `TorrentStatus` snapshot for a
registered id, and the `NotFound` result (`null`, modelled as `none`) for
an unregistered one. -/
theorem getTorrent_spec (w : World) (tid : List Char) :
    (∀ info, mapGet w.mgr.activeTorrents tid = some info →
      getTorrent w tid = some info.status) ∧
    (mapGet w.mgr.activeTorrents tid = none → getTorrent w tid = none) := by
  constructor
  · intro info h
    simp [getTorrent, h]
  · intro h
    simp [getTorrent, h]

theorem getTorrent_spec_witness :
    getTorrent sampleWorld sampleTid = some sampleInfo.status ∧
    getTorrent sampleWorld "missing".data = none :=
  ⟨(getTorrent_spec sampleWorld sampleTid).1 sampleInfo (by decide),
   (getTorrent_spec sampleWorld "missing".data).2 (by decide)⟩

/-! ## C9 — `getTorrentFiles` -/

/-- C9: `getTorrentFiles` is total and returns `[]` both for an id absent
from the registry and for a registered torrent whose file list has not yet
been populated. -/
theorem getTorrentFiles_spec (w : World) (tid : List Char) :
    (mapGet w.mgr.activeTorrents tid = none → getTorrentFiles w tid = []) ∧
    (∀ info, mapGet w.mgr.activeTorrents tid = some info →
      info.status.files = [] → getTorrentFiles w tid = []) := by
  constructor
  · intro h
    simp [getTorrentFiles, h]
  · intro info h hf
    simp [getTorrentFiles, h, hf]

theorem getTorrentFiles_spec_witness :
    getTorrentFiles sampleWorld "missing".data = [] ∧
    getTorrentFiles sampleWorld sampleTid = [] :=
  ⟨(getTorrentFiles_spec sampleWorld "missing".data).1 (by decide),
   (getTorrentFiles_spec sampleWorld sampleTid).2 sampleInfo (by decide) (by decide)⟩

/-! ## C3 — `stop(torrentId)` -/

/-- C3: `stopTorrent` fails with `NotFound` for an unregistered id; for a
registered id it resolves to `{torrentId, status: "stopped"}` and the
stored status ends with status `stopped` and zero speeds and peers. -/
theorem stopTorrent_spec (w : World) (tid : List Char) :
    (mapGet w.mgr.activeTorrents tid = none →
      stopTorrent w tid = { w := w, fx := [], res := .error (.notFound tid) }) ∧
    (∀ info, mapGet w.mgr.activeTorrents tid = some info →
      (stopTorrent w tid).res = .ok { torrentId := tid, status := "stopped".data } ∧
      ∃ info', mapGet (stopTorrent w tid).w.mgr.activeTorrents tid = some info' ∧
        info'.status.status = "stopped".data ∧
        info'.status.downloadSpeed = 0 ∧
        info'.status.uploadSpeed = 0 ∧
        info'.status.peers = 0) := by
  constructor
  · intro h
    simp [stopTorrent, h]
  · intro info h
    refine ⟨by simp [stopTorrent, h], ?_⟩
    simp only [stopTorrent, h, setInfo]
    exact ⟨_, mapGet_mapSet_self _ _ _, rfl, rfl, rfl, rfl⟩

theorem stopTorrent_spec_witness :
    (stopTorrent sampleWorld "missing".data =
      { w := sampleWorld, fx := [], res := .error (.notFound "missing".data) }) ∧
    ((stopTorrent sampleWorld sampleTid).res =
      .ok { torrentId := sampleTid, status := "stopped".data } ∧
    ∃ info', mapGet (stopTorrent sampleWorld sampleTid).w.mgr.activeTorrents sampleTid = some info' ∧
        info'.status.status = "stopped".data ∧
        info'.status.downloadSpeed = 0 ∧
        info'.status.uploadSpeed = 0 ∧
        info'.status.peers = 0) :=
  ⟨(stopTorrent_spec sampleWorld "missing".data).1 (by decide),
   (stopTorrent_spec sampleWorld sampleTid).2 sampleInfo (by decide)⟩

/-! ## C4 — stopping retains on-disk data -/

/-- C4: `stopTorrent` never touches the file system — it deletes nothing
(no `rmrf` in its trace, `fs` unchanged); any destruction it performs is
the torrent handle's, with `destroyStore: false`, and the stored handle of
a registered torrent ends destroyed. -/
theorem stopTorrent_retains_data (w : World) (tid : List Char) :
    (stopTorrent w tid).w.fs = w.fs ∧
    (∀ p, Effect.rmrf p ∉ (stopTorrent w tid).fx) ∧
    (∀ t b, Effect.destroyTorrent t b ∈ (stopTorrent w tid).fx → t = tid ∧ b = false) ∧
    (∀ info, mapGet w.mgr.activeTorrents tid = some info →
      Effect.destroyTorrent tid false ∈ (stopTorrent w tid).fx ∧
      ∃ info', mapGet (stopTorrent w tid).w.mgr.activeTorrents tid = some info' ∧
        info'.torrent.destroyed = true) := by
  refine ⟨stopTorrent_fs w tid, ?_, ?_, ?_⟩
  · intro p
    unfold stopTorrent
    cases h : mapGet w.mgr.activeTorrents tid with
    | none => simp
    | some info =>
      simp only [broadcastUpdate]
      by_cases hu : w.mgr.onUpdate <;> simp [hu]
  · intro t b
    unfold stopTorrent
    cases h : mapGet w.mgr.activeTorrents tid with
    | none => simp
    | some info =>
      simp only [broadcastUpdate]
      by_cases hu : w.mgr.onUpdate <;> simp [hu]
  · intro info h
    constructor
    · unfold stopTorrent
      rw [h]
      simp only [broadcastUpdate]
      by_cases hu : w.mgr.onUpdate <;> simp [hu]
    · simp only [stopTorrent, h, setInfo]
      exact ⟨_, mapGet_mapSet_self _ _ _, rfl⟩

theorem stopTorrent_retains_data_witness :
    Effect.destroyTorrent sampleTid false ∈ (stopTorrent sampleWorld sampleTid).fx ∧
    ∃ info', mapGet (stopTorrent sampleWorld sampleTid).w.mgr.activeTorrents sampleTid = some info' ∧
      info'.torrent.destroyed = true :=
  (stopTorrent_retains_data sampleWorld sampleTid).2.2.2 sampleInfo (by decide)

/-! ## C5 — `remove(torrentId, deleteFiles)` -/

/-- C5: `deleteTorrent` fails with `NotFound` for an unregistered id; for
a registered id (whose stored download path is non-empty, as every path
the server hands out is) it performs the stop first — its trace is the
stop trace followed by at most the recursive deletion — resolves to
`{torrentId, name, deleted: true}`, and the tree at
`path.join(downloadPath, torrent.name)` is gone afterwards exactly when
`deleteFiles` is true (with `deleteFiles = false` the file system is
untouched). -/
theorem deleteTorrent_spec (w : World) (tid : List Char) (df : Bool) :
    (mapGet w.mgr.activeTorrents tid = none →
      deleteTorrent w tid df = { w := w, fx := [], res := .error (.notFound tid) }) ∧
    (∀ info, mapGet w.mgr.activeTorrents tid = some info →
      info.downloadPath ≠ [] →
      (deleteTorrent w tid df).res =
        .ok { torrentId := tid, name := info.torrent.name, deleted := true } ∧
      (deleteTorrent w tid df).fx =
        (stopTorrent w tid).fx ++
          (if df = true ∧ pathJoin info.downloadPath info.torrent.name ∈ w.fs
           then [Effect.rmrf (pathJoin info.downloadPath info.torrent.name)] else []) ∧
      (df = true → pathJoin info.downloadPath info.torrent.name ∉ (deleteTorrent w tid df).w.fs) ∧
      (df = false → (deleteTorrent w tid df).w.fs = w.fs)) := by
  constructor
  · intro h
    simp [deleteTorrent, h]
  · intro info h hdp
    have hne : info.downloadPath.isEmpty = false := by
      cases hd : info.downloadPath with
      | nil => exact absurd hd hdp
      | cons a t => simp
    have hfs := stopTorrent_fs w tid
    cases hdf : df with
    | false =>
      refine ⟨?_, ?_, ?_, ?_⟩ <;>
        simp [deleteTorrent, h, hne, hfs]
    | true =>
      by_cases hc : pathJoin info.downloadPath info.torrent.name ∈ w.fs
      · refine ⟨?_, ?_, ?_, ?_⟩ <;>
          simp [deleteTorrent, h, hne, hfs, hc, not_mem_fsRemove]
      · refine ⟨?_, ?_, ?_, ?_⟩ <;>
          simp [deleteTorrent, h, hne, hfs, hc]

theorem deleteTorrent_spec_witness :
    ((deleteTorrent sampleWorld sampleTid true).res =
      .ok { torrentId := sampleTid, name := sampleInfo.torrent.name, deleted := true } ∧
     (deleteTorrent sampleWorld sampleTid true).fx =
      (stopTorrent sampleWorld sampleTid).fx ++
        [Effect.rmrf (pathJoin sampleInfo.downloadPath sampleInfo.torrent.name)] ∧
     pathJoin sampleInfo.downloadPath sampleInfo.torrent.name ∉
      (deleteTorrent sampleWorld sampleTid true).w.fs) ∧
    (deleteTorrent sampleWorld "missing".data false =
      { w := sampleWorld, fx := [], res := .error (.notFound "missing".data) }) := by
  have hmain := (deleteTorrent_spec sampleWorld sampleTid true).2 sampleInfo (by decide) (by decide)
  refine ⟨⟨hmain.1, ?_, hmain.2.2.1 rfl⟩, (deleteTorrent_spec sampleWorld "missing".data false).1 (by decide)⟩
  · rw [hmain.2.1]
    have : (true = true ∧ pathJoin sampleInfo.downloadPath sampleInfo.torrent.name ∈
        sampleWorld.fs) := ⟨rfl, by decide⟩
    rw [if_pos this]

/-! ## C1 — invalid magnet rejected before allocation -/

/-- C1 (amended): when the trimmed, entity-decoded magnet URI fails the
source's validation pattern — `magnet:?xt=urn:btih:` matched
case-insensitively, followed by forty hex characters — the start request
fails with an `InvalidInput` error and allocates nothing: the world (both
registry and file system) is unchanged and the effect trace is empty, so
no download directory is created and no torrent is added. -/
theorem start_invalid_rejected_no_allocation (mg : List Char) (fresh : Bool)
    (h : TorrentHandle) (w : World)
    (hbad : magnetRegexTest (decodeHtmlEntities (jsTrim mg)) = false) :
    ∃ msg, handleStartTorrent (some mg) fresh h w =
      { w := w, fx := [], res := .error (.invalidInput msg) } := by
  unfold handleStartTorrent
  by_cases he : mg.isEmpty
  · exact ⟨"Magnet link is required".data, by simp [he]⟩
  · exact
      ⟨"Invalid or malformed magnet link. It must be a valid info-hash magnet link.".data,
       by simp [he, hbad]⟩

theorem start_invalid_rejected_no_allocation_witness :
    magnetRegexTest (decodeHtmlEntities (jsTrim "not-a-magnet".data)) = false ∧
    ∃ msg, handleStartTorrent (some "not-a-magnet".data) false sampleHandle emptyWorld =
      { w := emptyWorld, fx := [], res := .error (.invalidInput msg) } :=
  ⟨by decide,
   start_invalid_rejected_no_allocation "not-a-magnet".data false sampleHandle emptyWorld (by decide)⟩

/-- C1 counterexample: a magnet whose literal part is upper case fails the
claim's pattern (`magnet:?xt=urn:btih:` followed by forty hex characters),
yet the request does not fail with `InvalidInput` — the source's regex
carries the `i` flag, so the torrent is started, the registry grows and
the download directory is created. -/
theorem start_claim_pattern_counterexample :
    claimMagnetPattern (decodeHtmlEntities (jsTrim cexUpperMagnet)) = false ∧
    isOkB (handleStartTorrent (some cexUpperMagnet) false sampleHandle emptyWorld).res = true ∧
    (handleStartTorrent (some cexUpperMagnet) false sampleHandle emptyWorld).w.mgr.activeTorrents ≠ [] ∧
    Effect.mkdir DOWNLOADS_DIR ∈ (handleStartTorrent (some cexUpperMagnet) false sampleHandle emptyWorld).fx := by
  refine ⟨by decide, by decide, by decide, by decide⟩

/-! ## C2 — `GET /stream/:torrentId/:fileIndex` -/

/-- C2: the stream route answers 404 when the torrent is unknown or the
file index names no file; 200 with `Content-Length` the full file length
when there is no `Range` header; and, for a `Range` header
`bytes=start-end` (end optional, defaulting to `fileSize - 1`), 206 with
`Content-Range: bytes start-end/fileSize` and
`Content-Length = end - start + 1`. -/
theorem streamHandler_spec (w : World) (tid idxp : List Char) (range : Option (List Char)) :
    (mapGet w.mgr.activeTorrents tid = none →
      (streamHandler w tid idxp range).statusCode = 404) ∧
    (∀ info, mapGet w.mgr.activeTorrents tid = some info → fileAt info idxp = none →
      (streamHandler w tid idxp range).statusCode = 404) ∧
    (∀ info file, mapGet w.mgr.activeTorrents tid = some info →
      fileAt info idxp = some file → range = none →
      streamHandler w tid idxp range =
        { statusCode := 200, contentLength := some file.length,
          contentRange := none, contentType := some (getMimeType file.name) }) ∧
    (∀ info file r s e, mapGet w.mgr.activeTorrents tid = some info →
      fileAt info idxp = some file → range = some r →
      jsParseInt ((rangeParts r).headD []) = some s →
      rangeEnd (rangeParts r) file.length = some e →
      streamHandler w tid idxp range =
        { statusCode := 206, contentLength := some (e - s + 1),
          contentRange := some (crHeader s e file.length),
          contentType := some (getMimeType file.name) }) := by
  refine ⟨?_, ?_, ?_, ?_⟩
  · intro h
    simp [streamHandler, h]
  · intro info h hf
    simp [streamHandler, h, hf]
  · intro info file h hf hr
    simp [streamHandler, h, hf, hr]
  · intro info file r s e h hf hr hs he
    simp only [List.headD_eq_head?_getD] at hs
    simp [streamHandler, h, hf, hr, hs, he]

theorem streamHandler_spec_witness :
    (streamHandler sampleWorld "missing".data "0".data none).statusCode = 404 ∧
    (streamHandler sampleWorld sampleTid "5".data none).statusCode = 404 ∧
    streamHandler sampleWorld sampleTid "0".data none =
      { statusCode := 200, contentLength := some sampleFile0.length,
        contentRange := none, contentType := some (getMimeType sampleFile0.name) } ∧
    streamHandler sampleWorld sampleTid "0".data (some "bytes=10-99".data) =
      { statusCode := 206, contentLength := some 90,
        contentRange := some (crHeader 10 99 sampleFile0.length),
        contentType := some (getMimeType sampleFile0.name) } := by
  refine ⟨?_, ?_, ?_, ?_⟩
  · exact (streamHandler_spec sampleWorld "missing".data "0".data none).1 (by decide)
  · exact (streamHandler_spec sampleWorld sampleTid "5".data none).2.1 sampleInfo
      (by decide) (by decide)
  · exact (streamHandler_spec sampleWorld sampleTid "0".data none).2.2.1 sampleInfo
      sampleFile0 (by decide) (by decide) rfl
  · have hv := (streamHandler_spec sampleWorld sampleTid "0".data
      (some "bytes=10-99".data)).2.2.2 sampleInfo sampleFile0 "bytes=10-99".data 10 99
      (by decide) (by decide) rfl (by decide) (by decide)
    rw [hv]
    decide

/-! ## C8 — push-based update delivery -/

theorem updateTorrentStatus_fx (w : World) (tid : List Char) (info : TorrentInfo)
    (hcb : w.mgr.onUpdate = true) :
    (updateTorrentStatus w tid info).2 =
      [Effect.update tid (updateTorrentStatus w tid info).1] := by
  unfold updateTorrentStatus broadcastUpdate
  simp [hcb]

/-- C8: with a callback registered, each meaningful status change —
metadata resolution, a periodic tick of the update timer, completion, and
error — makes the dispatcher emit exactly one callback invocation carrying
the torrent's id and the status stored for it afterwards; the engine's
per-block `download` event has no listener, so the snapshot is recomputed
only on the timer and block events emit nothing. -/
theorem push_based_updates (w : World) (tid : List Char) (info : TorrentInfo)
    (hreg : mapGet w.mgr.activeTorrents tid = some info)
    (hcb : w.mgr.onUpdate = true) :
    (∃ st, (handleTorrentEvent w tid .metadata).2 = [Effect.update tid st] ∧
      getTorrent (handleTorrentEvent w tid .metadata).1 tid = some st) ∧
    (info.updateTimer = true →
      ∃ st, (handleTorrentEvent w tid .tick).2 = [Effect.update tid st] ∧
        getTorrent (handleTorrentEvent w tid .tick).1 tid = some st) ∧
    (∃ st, (handleTorrentEvent w tid .done).2 = [Effect.update tid st] ∧
      getTorrent (handleTorrentEvent w tid .done).1 tid = some st) ∧
    (∀ msg, ∃ st, (handleTorrentEvent w tid (.errored msg)).2 = [Effect.update tid st] ∧
      getTorrent (handleTorrentEvent w tid (.errored msg)).1 tid = some st) ∧
    (handleTorrentEvent w tid .blockDownloaded).2 = [] ∧
    (handleTorrentEvent w tid .blockDownloaded).1 = w := by
  refine ⟨?_, ?_, ?_, ?_, ?_, ?_⟩
  · refine ⟨{ info.status with
        status := "downloading".data, fileName := info.torrent.name,
        totalSize := info.torrent.length, infoHash := some info.torrent.infoHash,
        files := fileEntriesOf tid info.torrent.files }, ?_, ?_⟩
    · simp [handleTorrentEvent, hreg, broadcastUpdate, hcb]
    · simp [handleTorrentEvent, hreg, getTorrent, setInfo, mapGet_mapSet_self]
  · intro ht
    refine ⟨(updateTorrentStatus w tid info).1, ?_, ?_⟩
    · simp only [handleTorrentEvent, hreg, ht, if_true]
      exact updateTorrentStatus_fx w tid info hcb
    · simp [handleTorrentEvent, hreg, ht, getTorrent, setInfo, mapGet_mapSet_self]
  · refine ⟨{ info.status with status := "completed".data, progress := 100 }, ?_, ?_⟩
    · simp [handleTorrentEvent, hreg, broadcastUpdate, hcb]
    · simp [handleTorrentEvent, hreg, getTorrent, setInfo, mapGet_mapSet_self]
  · intro msg
    refine ⟨{ info.status with status := "error".data, error := some msg }, ?_, ?_⟩
    · simp [handleTorrentEvent, hreg, broadcastUpdate, hcb]
    · simp [handleTorrentEvent, hreg, getTorrent, setInfo, mapGet_mapSet_self]
  · simp [handleTorrentEvent, hreg]
  · simp [handleTorrentEvent, hreg]

theorem push_based_updates_witness :
    (∃ st, (handleTorrentEvent sampleWorld sampleTid TorrentEvent.tick).2 =
        [Effect.update sampleTid st] ∧
      getTorrent (handleTorrentEvent sampleWorld sampleTid TorrentEvent.tick).1 sampleTid =
        some st) ∧
    (handleTorrentEvent sampleWorld sampleTid TorrentEvent.blockDownloaded).2 = [] :=
  ⟨(push_based_updates sampleWorld sampleTid sampleInfo (by decide) (by decide)).2.1 (by decide),
   (push_based_updates sampleWorld sampleTid sampleInfo (by decide) (by decide)).2.2.2.2.1⟩

/-! ## C7 — downloaded bytes = sum of verified piece lengths -/

theorem verifiedSum_set (l : List (Nat × Bool)) (i : Nat) (h : i < l.length)
    (hv : (l.get ⟨i, h⟩).2 = false) :
    ((l.set i ((l.get ⟨i, h⟩).1, true)).map (fun p => if p.2 then p.1 else 0)).sum =
      (l.map (fun p => if p.2 then p.1 else 0)).sum + (l.get ⟨i, h⟩).1 := by
  induction l generalizing i with
  | nil => exact absurd h (Nat.not_lt_zero i)
  | cons p t ih =>
    cases i with
    | zero =>
      simp only [List.get, List.set, List.map, List.sum_cons] at *
      simp [hv]
      omega
    | succ n =>
      simp only [List.get, List.set, List.map, List.sum_cons] at *
      rw [ih n (Nat.lt_of_succ_lt_succ h) hv]
      omega

theorem pieceStep_invariant {ps ps' : PieceStore} (h : PieceStep ps ps')
    (hinv : ps.downloaded = sumVerified ps) : ps'.downloaded = sumVerified ps' := by
  cases h with
  | verify i hi hv =>
    simp only [sumVerified] at *
    rw [verifiedSum_set ps.pieces i hi hv, ← hinv]

theorem pieceStep_mono {ps ps' : PieceStore} (h : PieceStep ps ps') :
    ps.downloaded ≤ ps'.downloaded := by
  cases h with
  | verify i hi hv => exact Nat.le_add_right _ _

theorem pieceReach_invariant {ps ps' : PieceStore} (h : PieceReach ps ps')
    (hinv : ps.downloaded = sumVerified ps) : ps'.downloaded = sumVerified ps' := by
  induction h with
  | refl => exact hinv
  | tail _ hstep ih => exact pieceStep_invariant hstep ih

theorem pieceReach_mono {ps ps' : PieceStore} (h : PieceReach ps ps') :
    ps.downloaded ≤ ps'.downloaded := by
  induction h with
  | refl => exact Nat.le_refl _
  | tail _ hstep ih => exact Nat.le_trans ih (pieceStep_mono hstep)

theorem initStore_invariant (lens : List Nat) :
    (initStore lens).downloaded = sumVerified (initStore lens) := by
  simp only [initStore, sumVerified, List.map_map]
  induction lens with
  | nil => simp
  | cons l t ih => simpa using ih

theorem updateTorrentStatus_downloaded (w : World) (tid : List Char) (info : TorrentInfo) :
    (updateTorrentStatus w tid info).1.downloaded = info.torrent.downloaded := by
  unfold updateTorrentStatus
  dsimp only
  split_ifs <;> rfl

/-- C7: in every store state reachable from a fresh torrent, the
`downloaded` counter equals the sum of the verified piece lengths; the
counter is monotonically non-decreasing along every further run; and the
periodic snapshot copies the engine counter, so `TorrentStatus.downloaded`
observes that same sum. -/
theorem downloaded_eq_sum_verified (lens : List Nat) (ps ps' : PieceStore)
    (h1 : PieceReach (initStore lens) ps) (h2 : PieceReach ps ps')
    (w : World) (tid : List Char) (info : TorrentInfo)
    (hd : info.torrent.downloaded = (ps.downloaded : Rat)) :
    ps.downloaded = sumVerified ps ∧
    ps.downloaded ≤ ps'.downloaded ∧
    (updateTorrentStatus w tid info).1.downloaded = (sumVerified ps : Rat) := by
  have hinv := pieceReach_invariant h1 (initStore_invariant lens)
  exact ⟨hinv, pieceReach_mono h2,
    by rw [updateTorrentStatus_downloaded, hd, hinv]⟩

theorem downloaded_eq_sum_verified_witness :
    (initStore [3, 5]).downloaded = sumVerified (initStore [3, 5]) ∧
    (initStore [3, 5]).downloaded ≤ (PieceStore.mk [(3, true), (5, false)] 3).downloaded ∧
    (updateTorrentStatus sampleWorld sampleTid sampleInfo).1.downloaded =
      (sumVerified (initStore [3, 5]) : Rat) := by
  have hstep : PieceStep (initStore [3, 5]) (PieceStore.mk [(3, true), (5, false)] 3) :=
    PieceStep.verify (initStore [3, 5]) 0 (by decide) (by decide)
  exact downloaded_eq_sum_verified [3, 5] (initStore [3, 5])
    (PieceStore.mk [(3, true), (5, false)] 3) Relation.ReflTransGen.refl
    (Relation.ReflTransGen.single hstep) sampleWorld sampleTid sampleInfo (by decide)

/-! ## C10 — replacement and encoding lemmas -/

theorem raGo_skip (pat rep : List Char) (s : List Char) (k : Nat) :
    raGo pat rep s k = raGo pat rep (s.drop k) 0 := by
  induction s generalizing k with
  | nil => simp [raGo]
  | cons c cs ih =>
    cases k with
    | zero => simp
    | succ n => simpa [raGo] using ih n

theorem replaceAll_cons_pos (pat rep : List Char) (c : Char) (cs : List Char)
    (h : pat.isPrefixOf (c :: cs) = true) :
    replaceAll pat rep (c :: cs) = rep ++ replaceAll pat rep (cs.drop (pat.length - 1)) := by
  simp [replaceAll, raGo, h, raGo_skip]

theorem replaceAll_cons_neg (pat rep : List Char) (c : Char) (cs : List Char)
    (h : pat.isPrefixOf (c :: cs) = false) :
    replaceAll pat rep (c :: cs) = c :: replaceAll pat rep cs := by
  simp [replaceAll, raGo, h]

theorem isPrefixOf_append_self (p rest : List Char) : p.isPrefixOf (p ++ rest) = true := by
  induction p with
  | nil => simp [List.isPrefixOf]
  | cons a t ih => simp [List.isPrefixOf, ih]

theorem replaceAll_head_match (pat rep rest : List Char) (hne : pat ≠ []) :
    replaceAll pat rep (pat ++ rest) = rep ++ replaceAll pat rep rest := by
  cases pat with
  | nil => exact absurd rfl hne
  | cons a t =>
    have hpre : (a :: t).isPrefixOf (a :: (t ++ rest)) = true := by
      rw [← List.cons_append]
      exact isPrefixOf_append_self _ _
    rw [List.cons_append, replaceAll_cons_pos _ _ _ _ hpre]
    have hlen : (a :: t).length - 1 = t.length := by simp
    rw [hlen, List.drop_left]

theorem replaceAll_of_not_contains (pat rep s : List Char)
    (h : containsSub pat s = false) : replaceAll pat rep s = s := by
  induction s with
  | nil => rfl
  | cons c cs ih =>
    rw [containsSub] at h
    rcases Bool.or_eq_false_iff.mp h with ⟨h1, h2⟩
    rw [replaceAll_cons_neg _ _ _ _ h1, ih h2]

theorem replaceAll_skip_chunk (pat rep e rest : List Char)
    (h : ∀ i, i < e.length → pat.isPrefixOf (e.drop i ++ rest) = false) :
    replaceAll pat rep (e ++ rest) = e ++ replaceAll pat rep rest := by
  induction e with
  | nil => simp
  | cons c e' ih =>
    have h0 := h 0 (by simp)
    rw [List.cons_append, replaceAll_cons_neg _ _ _ _ (by simpa using h0)]
    rw [ih (fun i hi => by simpa using h (i + 1) (by simpa using Nat.succ_lt_succ hi))]
    simp

theorem mismatchWithin_isPrefixOf (pat x rest : List Char)
    (h : mismatchWithin pat x = true) : pat.isPrefixOf (x ++ rest) = false := by
  induction pat generalizing x with
  | nil => simp [mismatchWithin] at h
  | cons p ps ih =>
    cases x with
    | nil => simp [mismatchWithin] at h
    | cons y ys =>
      rw [mismatchWithin] at h
      by_cases hpy : p = y
      · rw [if_pos hpy] at h
        subst hpy
        simp [List.isPrefixOf, ih ys h]
      · simp [List.isPrefixOf, hpy]

theorem chunkSafe_spec (pat e : List Char) (h : chunkSafe pat e = true) :
    ∀ i, i < e.length → ∀ rest, pat.isPrefixOf (e.drop i ++ rest) = false := by
  intro i hi rest
  have hall := List.all_eq_true.mp h (i : Nat) (List.mem_range.mpr hi)
  exact mismatchWithin_isPrefixOf _ _ _ hall

/-! Character-class facts for the six encoded characters. -/

theorem passIndex_cases (c : Char) (h : passIndex c ≠ 0) :
    c = '&' ∨ c = '<' ∨ c = '>' ∨ c = '"' ∨ c = '\'' ∨ c = '/' := by
  by_contra hc
  push_neg at hc
  obtain ⟨h1, h2, h3, h4, h5, h6⟩ := hc
  simp [passIndex, h1, h2, h3, h4, h5, h6] at h

theorem passIndex_inj (a b : Char) (hab : passIndex a = passIndex b)
    (ha : passIndex a ≠ 0) : a = b := by
  have hb : passIndex b ≠ 0 := by omega
  rcases passIndex_cases a ha with h | h | h | h | h | h <;> subst h <;>
    rcases passIndex_cases b hb with h | h | h | h | h | h <;> subst h <;>
    first
    | rfl
    | simp [passIndex] at hab

theorem expansionOf_eq_amp_cons (c : Char) (h : passIndex c ≠ 0) :
    expansionOf c = '&' :: (expansionOf c).tail := by
  rcases passIndex_cases c h with h | h | h | h | h | h <;> subst h <;> decide

theorem expansionOf_tail_plain (c : Char) (h : passIndex c ≠ 0) :
    ∀ x ∈ (expansionOf c).tail, passIndex x = 0 := by
  rcases passIndex_cases c h with h | h | h | h | h | h <;> subst h <;> decide

theorem expansionOf_ne_nil (c : Char) : expansionOf c ≠ [] := by
  unfold expansionOf
  split_ifs <;> simp [entAmp, entLt, entGt, entQuot, entNum39, entX2F]

theorem encStage_ne_nil (j : Nat) (c : Char) : encStage j c ≠ [] := by
  unfold encStage
  split_ifs with h
  · exact expansionOf_ne_nil c
  · simp

theorem noCross (t c : Char) (ht : passIndex t ≠ 0) (hc : passIndex c ≠ 0) (hne : t ≠ c) :
    ∀ i, i < (expansionOf c).length → ∀ rest,
      (expansionOf t).isPrefixOf ((expansionOf c).drop i ++ rest) = false := by
  apply chunkSafe_spec
  rcases passIndex_cases t ht with h | h | h | h | h | h <;> subst h <;>
    rcases passIndex_cases c hc with h | h | h | h | h | h <;> subst h <;>
    first
    | exact absurd rfl hne
    | decide

theorem isPrefixOf_encodeStage_plain (p : List Char) (hp : ∀ x ∈ p, passIndex x = 0)
    (j : Nat) (cs : List Char) :
    p.isPrefixOf (encodeStage j cs) = p.isPrefixOf cs := by
  induction cs generalizing p with
  | nil => cases p <;> simp [encodeStage, List.isPrefixOf]
  | cons c cs' ih =>
    cases p with
    | nil => simp [List.isPrefixOf]
    | cons q p' =>
      have hq : passIndex q = 0 := hp q (by simp)
      by_cases hter : passIndex c = 0
      · have hplain : encStage j c = [c] := by simp [encStage, hter]
        rw [show encodeStage j (c :: cs') = c :: encodeStage j cs' from by
          rw [encodeStage, hplain]; rfl]
        simp only [List.isPrefixOf]
        rw [ih p' (fun x hx => hp x (by simp [hx]))]
      · have hqc : (q == c) = false := by
          refine beq_eq_false_iff_ne.mpr (fun h => hter ?_)
          rw [← h, hq]
        by_cases hj : j < passIndex c
        · have hexp : encStage j c = expansionOf c := by simp [encStage, hj]
          rw [show encodeStage j (c :: cs') = expansionOf c ++ encodeStage j cs' from by
            rw [encodeStage, hexp]]
          rw [expansionOf_eq_amp_cons c hter, List.cons_append]
          have hqamp : (q == '&') = false := by
            refine beq_eq_false_iff_ne.mpr (fun h => ?_)
            rw [h] at hq
            simp [passIndex] at hq
          simp [List.isPrefixOf, hqamp, hqc]
        · have hplain : encStage j c = [c] := by simp [encStage, hj]
          rw [show encodeStage j (c :: cs') = c :: encodeStage j cs' from by
            rw [encodeStage, hplain]; rfl]
          simp [List.isPrefixOf, hqc]

theorem containsSub_cons_false (pat : List Char) (c : Char) (cs : List Char)
    (h : containsSub pat (c :: cs) = false) : containsSub pat cs = false := by
  rw [containsSub] at h
  exact (Bool.or_eq_false_iff.mp h).2

theorem noEntities_parts (s : List Char) (h : noEntities s = true) :
    containsSub entAmp s = false ∧ containsSub entLt s = false ∧
    containsSub entGt s = false ∧ containsSub entQuot s = false ∧
    containsSub entNum39 s = false ∧ containsSub entX2F s = false := by
  rw [noEntities] at h
  simp only [Bool.and_eq_true, Bool.not_eq_true'] at h
  exact ⟨h.1.1.1.1.1, h.1.1.1.1.2, h.1.1.1.2, h.1.1.2, h.1.2, h.2⟩

theorem noEntities_cons (c : Char) (cs : List Char)
    (h : noEntities (c :: cs) = true) : noEntities cs = true := by
  obtain ⟨h1, h2, h3, h4, h5, h6⟩ := noEntities_parts _ h
  rw [noEntities]
  simp only [Bool.and_eq_true, Bool.not_eq_true']
  exact ⟨⟨⟨⟨⟨containsSub_cons_false _ _ _ h1, containsSub_cons_false _ _ _ h2⟩,
    containsSub_cons_false _ _ _ h3⟩, containsSub_cons_false _ _ _ h4⟩,
    containsSub_cons_false _ _ _ h5⟩, containsSub_cons_false _ _ _ h6⟩

theorem noEntities_expansion (m : List Char) (t : Char)
    (h : noEntities m = true) (ht : passIndex t ≠ 0) :
    containsSub (expansionOf t) m = false := by
  obtain ⟨h1, h2, h3, h4, h5, h6⟩ := noEntities_parts _ h
  rcases passIndex_cases t ht with hh | hh | hh | hh | hh | hh <;> subst hh
  · rw [show expansionOf '&' = entAmp from by decide]; exact h1
  · rw [show expansionOf '<' = entLt from by decide]; exact h2
  · rw [show expansionOf '>' = entGt from by decide]; exact h3
  · rw [show expansionOf '"' = entQuot from by decide]; exact h4
  · rw [show expansionOf '\'' = entNum39 from by decide]; exact h5
  · rw [show expansionOf '/' = entX2F from by decide]; exact h6

/-- One decoding pass, applied to a stage-`j` encoding of an
entity-free string, decodes exactly its own entity. -/
theorem pass_stage (j k : Nat) (t : Char) (hk : passIndex t = k) (hjk : k = j + 1)
    (m : List Char) (hm : noEntities m = true) :
    replaceAll (expansionOf t) [t] (encodeStage j m) = encodeStage k m := by
  induction m with
  | nil => rfl
  | cons c cs ih =>
    have hmcs : noEntities cs = true := noEntities_cons c cs hm
    have hkpos : k ≠ 0 := by omega
    have htne : passIndex t ≠ 0 := by omega
    rcases Nat.lt_trichotomy (passIndex c) k with hlt | heq | hgt
    · -- already-decoded or plain character: copied verbatim
      have hplain : encStage j c = [c] := by
        rw [encStage, if_neg (by omega)]
      have hplainK : encStage k c = [c] := by
        rw [encStage, if_neg (by omega)]
      have hstep : encodeStage j (c :: cs) = c :: encodeStage j cs := by
        rw [encodeStage, hplain]; rfl
      by_cases hamp : c = '&'
      · subst hamp
        have hnp : (expansionOf t).isPrefixOf ('&' :: encodeStage j cs) = false := by
          rw [expansionOf_eq_amp_cons t htne]
          simp only [List.isPrefixOf, beq_self_eq_true, Bool.true_and]
          rw [isPrefixOf_encodeStage_plain _ (expansionOf_tail_plain t htne)]
          have hcont : containsSub (expansionOf t) ('&' :: cs) = false :=
            noEntities_expansion _ t hm htne
          rw [containsSub] at hcont
          have hpref := (Bool.or_eq_false_iff.mp hcont).1
          rw [expansionOf_eq_amp_cons t htne] at hpref
          simpa [List.isPrefixOf] using hpref
        rw [hstep, replaceAll_cons_neg _ _ _ _ hnp, ih hmcs]
        rw [encodeStage, hplainK]
        rfl
      · have hnp : (expansionOf t).isPrefixOf (c :: encodeStage j cs) = false := by
          rw [expansionOf_eq_amp_cons t htne]
          have : ('&' == c) = false := beq_eq_false_iff_ne.mpr (fun h => hamp h.symm)
          simp [List.isPrefixOf, this]
        rw [hstep, replaceAll_cons_neg _ _ _ _ hnp, ih hmcs]
        rw [encodeStage, hplainK]
        rfl
    · -- the character this pass decodes
      have hct : c = t := passIndex_inj c t (by omega) (by omega)
      subst hct
      have hexp : encStage j c = expansionOf c := by
        rw [encStage, if_pos (by omega)]
      have hstep : encodeStage j (c :: cs) = expansionOf c ++ encodeStage j cs := by
        rw [encodeStage, hexp]
      have hne : expansionOf c ≠ [] := expansionOf_ne_nil c
      rw [hstep, replaceAll_head_match _ _ _ hne, ih hmcs]
      have hplainK : encStage k c = [c] := by
        rw [encStage, if_neg (by omega)]
      rw [encodeStage, hplainK]
    · -- a later pass's entity: an opaque chunk for this pass
      have hcne : passIndex c ≠ 0 := by omega
      have hexp : encStage j c = expansionOf c := by
        rw [encStage, if_pos (by omega)]
      have hexpK : encStage k c = expansionOf c := by
        rw [encStage, if_pos (by omega)]
      have htc : t ≠ c := fun h => by rw [h] at hk; omega
      have hstep : encodeStage j (c :: cs) = expansionOf c ++ encodeStage j cs := by
        rw [encodeStage, hexp]
      rw [hstep,
        replaceAll_skip_chunk _ _ _ _
          (fun i hi => noCross t c htne hcne htc i hi (encodeStage j cs)),
        ih hmcs]
      rw [encodeStage, hexpK]

theorem encodeStage_six (m : List Char) : encodeStage 6 m = m := by
  induction m with
  | nil => rfl
  | cons c cs ih =>
    have hle : passIndex c ≤ 6 := by
      unfold passIndex
      split_ifs <;> omega
    have : encStage 6 c = [c] := by
      rw [encStage, if_neg (by omega)]
    rw [encodeStage, this, ih]
    rfl

/-- Round trip: decoding the fully entity-encoded form of an entity-free
string gives the string back. -/
theorem decode_htmlEncode (m : List Char) (hm : noEntities m = true) :
    decodeHtmlEntities (htmlEncode m) = m := by
  unfold decodeHtmlEntities htmlEncode
  rw [show entAmp = expansionOf '&' from by decide,
    show entLt = expansionOf '<' from by decide,
    show entGt = expansionOf '>' from by decide,
    show entQuot = expansionOf '"' from by decide,
    show entNum39 = expansionOf '\'' from by decide,
    show entX2F = expansionOf '/' from by decide]
  rw [pass_stage 0 1 '&' (by decide) rfl m hm,
    pass_stage 1 2 '<' (by decide) rfl m hm,
    pass_stage 2 3 '>' (by decide) rfl m hm,
    pass_stage 3 4 '"' (by decide) rfl m hm,
    pass_stage 4 5 '\'' (by decide) rfl m hm,
    pass_stage 5 6 '/' (by decide) rfl m hm,
    encodeStage_six m]

/-- Decoding is the identity on entity-free strings. -/
theorem decode_id_of_noEntities (s : List Char) (h : noEntities s = true) :
    decodeHtmlEntities s = s := by
  obtain ⟨h1, h2, h3, h4, h5, h6⟩ := noEntities_parts _ h
  unfold decodeHtmlEntities
  rw [replaceAll_of_not_contains _ _ _ h1, replaceAll_of_not_contains _ _ _ h2,
    replaceAll_of_not_contains _ _ _ h3, replaceAll_of_not_contains _ _ _ h4,
    replaceAll_of_not_contains _ _ _ h5, replaceAll_of_not_contains _ _ _ h6]

/-! Commutation of `trim` with the encoding. -/

theorem encRev_append (j : Nat) (a b : List Char) :
    encRev j (a ++ b) = encRev j a ++ encRev j b := by
  induction a with
  | nil => rfl
  | cons c cs ih => simp [encRev, ih]

theorem reverse_encodeStage (j : Nat) (s : List Char) :
    (encodeStage j s).reverse = encRev j s.reverse := by
  induction s with
  | nil => rfl
  | cons c cs ih =>
    rw [encodeStage, List.reverse_append, ih, List.reverse_cons, encRev_append]
    simp [encRev]

theorem ws_passIndex (c : Char) (h : isWS c = true) : passIndex c = 0 := by
  rw [isWS] at h
  simp only [Bool.or_eq_true, beq_iff_eq] at h
  rcases h with ((((h | h) | h) | h) | h) | h <;> subst h <;> decide

theorem encStage_ws (j : Nat) (c : Char) (h : isWS c = true) : encStage j c = [c] := by
  rw [encStage, if_neg]
  rw [ws_passIndex c h]
  omega

theorem encStage_head_ws (j : Nat) (c : Char) :
    ∃ d tl, encStage j c = d :: tl ∧ isWS d = isWS c := by
  by_cases hp : j < passIndex c
  · have hpi : passIndex c ≠ 0 := by omega
    refine ⟨'&', (expansionOf c).tail, ?_, ?_⟩
    · rw [encStage, if_pos hp]
      exact expansionOf_eq_amp_cons c hpi
    · rcases passIndex_cases c hpi with h | h | h | h | h | h <;> subst h <;> decide
  · exact ⟨c, [], by rw [encStage, if_neg hp], rfl⟩

theorem encRevStage_head_ws (j : Nat) (c : Char) :
    ∃ d tl, (encStage j c).reverse = d :: tl ∧ isWS d = isWS c := by
  by_cases hp : j < passIndex c
  · have hpi : passIndex c ≠ 0 := by omega
    rcases passIndex_cases c hpi with h | h | h | h | h | h <;> subst h
    · exact ⟨';', ['p', 'm', 'a', '&'], by rw [encStage, if_pos hp]; decide, by decide⟩
    · exact ⟨';', ['t', 'l', '&'], by rw [encStage, if_pos hp]; decide, by decide⟩
    · exact ⟨';', ['t', 'g', '&'], by rw [encStage, if_pos hp]; decide, by decide⟩
    · exact ⟨';', ['t', 'o', 'u', 'q', '&'], by rw [encStage, if_pos hp]; decide, by decide⟩
    · exact ⟨';', ['9', '3', '#', '&'], by rw [encStage, if_pos hp]; decide, by decide⟩
    · exact ⟨';', ['F', '2', 'x', '#', '&'], by rw [encStage, if_pos hp]; decide, by decide⟩
  · exact ⟨c, [], by rw [encStage, if_neg hp, List.reverse_singleton], rfl⟩

theorem dropWhile_encodeStage (j : Nat) (s : List Char) :
    (encodeStage j s).dropWhile isWS = encodeStage j (s.dropWhile isWS) := by
  induction s with
  | nil => rfl
  | cons c cs ih =>
    by_cases hws : isWS c = true
    · have hd' : encStage j c = [c] := encStage_ws j c hws
      rw [encodeStage, hd', List.singleton_append,
        List.dropWhile_cons_of_pos hws, ih, List.dropWhile_cons_of_pos hws]
    · have hcws : isWS c = false := by simpa using hws
      obtain ⟨d, tl, hd, hdws⟩ := encStage_head_ws j c
      rw [encodeStage, hd, List.cons_append,
        List.dropWhile_cons_of_neg (by simp [hdws, hcws]),
        List.dropWhile_cons_of_neg (by simp [hcws])]
      rw [encodeStage, hd, List.cons_append]

theorem dropWhile_encRev (j : Nat) (s : List Char) :
    (encRev j s).dropWhile isWS = encRev j (s.dropWhile isWS) := by
  induction s with
  | nil => rfl
  | cons c cs ih =>
    by_cases hws : isWS c = true
    · have hd' : encStage j c = [c] := encStage_ws j c hws
      rw [encRev, hd', List.reverse_singleton, List.singleton_append,
        List.dropWhile_cons_of_pos hws, ih, List.dropWhile_cons_of_pos hws]
    · have hcws : isWS c = false := by simpa using hws
      obtain ⟨d, tl, hd, hdws⟩ := encRevStage_head_ws j c
      rw [encRev, hd, List.cons_append,
        List.dropWhile_cons_of_neg (by simp [hdws, hcws]),
        List.dropWhile_cons_of_neg (by simp [hcws])]
      rw [encRev, hd, List.cons_append]

theorem trimLeft_htmlEncode (s : List Char) :
    trimLeftWS (htmlEncode s) = htmlEncode (trimLeftWS s) := by
  unfold trimLeftWS htmlEncode
  exact dropWhile_encodeStage 0 s

theorem trimRight_htmlEncode (s : List Char) :
    trimRightWS (htmlEncode s) = htmlEncode (trimRightWS s) := by
  unfold trimRightWS htmlEncode
  rw [reverse_encodeStage, dropWhile_encRev]
  have h2 := reverse_encodeStage 0 ((s.reverse.dropWhile isWS).reverse)
  rw [List.reverse_reverse] at h2
  rw [← h2, List.reverse_reverse]

theorem jsTrim_htmlEncode (s : List Char) :
    jsTrim (htmlEncode s) = htmlEncode (jsTrim s) := by
  unfold jsTrim
  rw [trimLeft_htmlEncode, trimRight_htmlEncode]

/-! The entity-free condition survives trimming. -/

theorem isPrefixOf_append_extend (p s y : List Char) (h : p.isPrefixOf s = true) :
    p.isPrefixOf (s ++ y) = true := by
  induction p generalizing s with
  | nil => simp [List.isPrefixOf]
  | cons a t ih =>
    cases s with
    | nil => simp [List.isPrefixOf] at h
    | cons b bs =>
      simp only [List.cons_append, List.isPrefixOf, Bool.and_eq_true] at h ⊢
      exact ⟨h.1, ih bs h.2⟩

theorem containsSub_append_left (pat a s : List Char) (h : containsSub pat s = true) :
    containsSub pat (a ++ s) = true := by
  induction a with
  | nil => exact h
  | cons c cs ih => rw [List.cons_append, containsSub, ih, Bool.or_true]

theorem containsSub_append_right (pat s y : List Char) (h : containsSub pat s = true) :
    containsSub pat (s ++ y) = true := by
  induction s with
  | nil =>
    rw [containsSub] at h
    cases pat with
    | nil => cases y <;> simp [containsSub, List.isPrefixOf]
    | cons p ps => simp [List.isPrefixOf] at h
  | cons c cs ih =>
    rw [containsSub] at h
    simp only [Bool.or_eq_true] at h
    rcases h with h1 | h2
    · rw [List.cons_append, containsSub]
      have := isPrefixOf_append_extend pat (c :: cs) y h1
      rw [List.cons_append] at this
      rw [this, Bool.true_or]
    · rw [List.cons_append, containsSub, ih h2, Bool.or_true]

theorem containsSub_jsTrim (pat s : List Char) (h : containsSub pat (jsTrim s) = true) :
    containsSub pat s = true := by
  unfold jsTrim at h
  have hR : ∀ t : List Char, containsSub pat (trimRightWS t) = true →
      containsSub pat t = true := by
    intro t ht
    have hdec : t = trimRightWS t ++ (t.reverse.takeWhile isWS).reverse := by
      unfold trimRightWS
      conv_lhs => rw [← List.reverse_reverse t,
        ← List.takeWhile_append_dropWhile isWS t.reverse, List.reverse_append]
    rw [hdec]
    exact containsSub_append_right _ _ _ ht
  have hL : containsSub pat (trimLeftWS s) = true → containsSub pat s = true := by
    intro ht
    have hdec : s = s.takeWhile isWS ++ trimLeftWS s := by
      unfold trimLeftWS
      exact (List.takeWhile_append_dropWhile isWS s).symm
    rw [hdec]
    exact containsSub_append_left _ _ _ ht
  exact hL (hR _ h)

theorem containsSub_jsTrim_false (pat s : List Char) (h : containsSub pat s = false) :
    containsSub pat (jsTrim s) = false := by
  cases hx : containsSub pat (jsTrim s) with
  | false => rfl
  | true => simp [containsSub_jsTrim pat s hx] at h

theorem noEntities_jsTrim (s : List Char) (h : noEntities s = true) :
    noEntities (jsTrim s) = true := by
  obtain ⟨h1, h2, h3, h4, h5, h6⟩ := noEntities_parts _ h
  rw [noEntities]
  simp only [Bool.and_eq_true, Bool.not_eq_true']
  exact ⟨⟨⟨⟨⟨containsSub_jsTrim_false _ _ h1, containsSub_jsTrim_false _ _ h2⟩,
    containsSub_jsTrim_false _ _ h3⟩, containsSub_jsTrim_false _ _ h4⟩,
    containsSub_jsTrim_false _ _ h5⟩, containsSub_jsTrim_false _ _ h6⟩

theorem htmlEncode_isEmpty (m : List Char) : (htmlEncode m).isEmpty = m.isEmpty := by
  cases m with
  | nil => rfl
  | cons c cs =>
    obtain ⟨d, tl, hd, _⟩ := encStage_head_ws 0 c
    rw [show htmlEncode (c :: cs) = encStage 0 c ++ encodeStage 0 cs from rfl, hd,
      List.cons_append]
    rfl

/-! Commutation of the later decoding passes with staged encodings.  The
decoder's passes 2–6 rescan pass 1's output, so an entity string present
literally in the input decodes the same whether or not the input was
encoded first; only pass 1's own entity (`&amp;`) is unrecoverable. -/

theorem isPrefixOf_exists (p s : List Char) (h : p.isPrefixOf s = true) :
    s = p ++ s.drop p.length := by
  induction p generalizing s with
  | nil => simp
  | cons a t ih =>
    cases s with
    | nil => simp [List.isPrefixOf] at h
    | cons b bs =>
      simp only [List.isPrefixOf, Bool.and_eq_true, beq_iff_eq] at h
      obtain ⟨hab, hrest⟩ := h
      subst hab
      simpa using ih bs hrest

theorem encodeStage_append (j : Nat) (a b : List Char) :
    encodeStage j (a ++ b) = encodeStage j a ++ encodeStage j b := by
  induction a with
  | nil => rfl
  | cons c cs ih => simp [encodeStage, ih]

theorem encodeStage_id_of_le (j : Nat) (p : List Char)
    (hp : ∀ x ∈ p, passIndex x ≤ j) : encodeStage j p = p := by
  induction p with
  | nil => rfl
  | cons c cs ih =>
    have hc : passIndex c ≤ j := hp c (by simp)
    rw [show encodeStage j (c :: cs) = encStage j c ++ encodeStage j cs from rfl,
      show encStage j c = [c] from by rw [encStage, if_neg (by omega)],
      ih (fun x hx => hp x (by simp [hx])), List.singleton_append]

theorem expansionOf_mem_le_one (t : Char) (ht : passIndex t ≠ 0) :
    ∀ x ∈ expansionOf t, passIndex x ≤ 1 := by
  rcases passIndex_cases t ht with h | h | h | h | h | h <;> subst h <;> decide

/-- The first decoding pass, applied to the fully encoded form of any
string, yields the stage-1 encoding: in the encoded string every `&` opens
an entity, so exactly the encoded ampersands are decoded.  No hypothesis on
the string is needed. -/
theorem pass_stage1 (m : List Char) :
    replaceAll (expansionOf '&') ['&'] (encodeStage 0 m) = encodeStage 1 m := by
  have htne : passIndex '&' ≠ 0 := by decide
  induction m with
  | nil => rfl
  | cons c cs ih =>
    rw [show encodeStage 0 (c :: cs) = encStage 0 c ++ encodeStage 0 cs from rfl,
      show encodeStage 1 (c :: cs) = encStage 1 c ++ encodeStage 1 cs from rfl]
    rcases Nat.lt_trichotomy (passIndex c) 1 with hlt | heq | hgt
    · have h0 : encStage 0 c = [c] := by rw [encStage, if_neg (by omega)]
      have h1 : encStage 1 c = [c] := by rw [encStage, if_neg (by omega)]
      have hcamp : c ≠ '&' := fun h => by subst h; simp [passIndex] at hlt
      have hnp : (expansionOf '&').isPrefixOf (c :: encodeStage 0 cs) = false := by
        rw [expansionOf_eq_amp_cons '&' htne]
        have hb : ('&' == c) = false := beq_eq_false_iff_ne.mpr (fun h => hcamp h.symm)
        simp [List.isPrefixOf, hb]
      rw [h0, h1, List.singleton_append, replaceAll_cons_neg _ _ _ _ hnp, ih,
        List.singleton_append]
    · have hc : c = '&' := passIndex_inj c '&' (by rw [heq]; decide) (by omega)
      subst hc
      have h0 : encStage 0 '&' = expansionOf '&' := by
        rw [encStage, if_pos (by decide : (0 : Nat) < passIndex '&')]
      have h1 : encStage 1 '&' = ['&'] := by rw [encStage, if_neg (by decide)]
      rw [h0, h1, replaceAll_head_match _ _ _ (expansionOf_ne_nil '&'), ih,
        List.singleton_append]
    · have hcne : passIndex c ≠ 0 := by omega
      have htc : '&' ≠ c := fun h => by rw [← h] at hgt; simp [passIndex] at hgt
      have h0 : encStage 0 c = expansionOf c := by rw [encStage, if_pos (by omega)]
      have h1 : encStage 1 c = expansionOf c := by rw [encStage, if_pos (by omega)]
      rw [h0, h1,
        replaceAll_skip_chunk _ _ _ _ (fun i hi => noCross '&' c htne hcne htc i hi _), ih]

/-- Each later pass (k ≥ 2) commutes with the staged encodings: decoding
pass k on the stage-(k−1) encoding equals the stage-k encoding of the
decoded plain string.  A literal entity of pass k inside the plain string
is decoded on both sides, so no hypothesis on the string is needed. -/
theorem passk_comm (j k : Nat) (t : Char) (hk : passIndex t = k) (hjk : k = j + 1)
    (hk2 : 2 ≤ k) (u : List Char) :
    replaceAll (expansionOf t) [t] (encodeStage j u) =
      encodeStage k (replaceAll (expansionOf t) [t] u) := by
  have htne : passIndex t ≠ 0 := by omega
  have main : ∀ n, ∀ u : List Char, u.length ≤ n →
      replaceAll (expansionOf t) [t] (encodeStage j u) =
        encodeStage k (replaceAll (expansionOf t) [t] u) := by
    intro n
    induction n with
    | zero =>
      intro u hu
      rw [List.eq_nil_of_length_eq_zero (Nat.le_zero.mp hu)]
      rfl
    | succ n ih =>
      intro u hu
      cases u with
      | nil => rfl
      | cons c cs =>
        by_cases hpre : (expansionOf t).isPrefixOf (c :: cs) = true
        · have hdec : (c :: cs) = expansionOf t ++ (c :: cs).drop (expansionOf t).length :=
            isPrefixOf_exists _ _ hpre
          have hplen : 1 ≤ (expansionOf t).length := by
            rcases passIndex_cases t htne with h | h | h | h | h | h <;> subst h <;> decide
          have hrlen : ((c :: cs).drop (expansionOf t).length).length ≤ n := by
            rw [List.length_drop]
            have : (c :: cs).length ≤ n + 1 := hu
            omega
          conv_lhs => rw [hdec]
          conv_rhs => rw [hdec]
          rw [encodeStage_append,
            encodeStage_id_of_le j _
              (fun x hx => le_trans (expansionOf_mem_le_one t htne x hx) (by omega)),
            replaceAll_head_match _ _ _ (expansionOf_ne_nil t),
            replaceAll_head_match _ _ _ (expansionOf_ne_nil t),
            ih _ hrlen, List.singleton_append, List.singleton_append,
            show encodeStage k (t :: replaceAll (expansionOf t) [t]
                ((c :: cs).drop (expansionOf t).length)) =
              encStage k t ++ encodeStage k (replaceAll (expansionOf t) [t]
                ((c :: cs).drop (expansionOf t).length)) from rfl,
            show encStage k t = [t] from by rw [encStage, if_neg (by omega)],
            List.singleton_append]
        · have hpre' : (expansionOf t).isPrefixOf (c :: cs) = false := by
            cases hx : (expansionOf t).isPrefixOf (c :: cs) with
            | false => rfl
            | true => exact absurd hx hpre
          have hcs : cs.length ≤ n := by
            have : (c :: cs).length ≤ n + 1 := hu
            simpa using this
          rw [replaceAll_cons_neg _ _ _ _ hpre',
            show encodeStage k (c :: replaceAll (expansionOf t) [t] cs) =
              encStage k c ++ encodeStage k (replaceAll (expansionOf t) [t] cs) from rfl,
            show encodeStage j (c :: cs) = encStage j c ++ encodeStage j cs from rfl]
          rcases Nat.lt_trichotomy (passIndex c) k with hlt | heq | hgt
          · have hj : encStage j c = [c] := by rw [encStage, if_neg (by omega)]
            have hkc : encStage k c = [c] := by rw [encStage, if_neg (by omega)]
            have hnp : (expansionOf t).isPrefixOf (c :: encodeStage j cs) = false := by
              by_cases hamp : c = '&'
              · subst hamp
                rw [expansionOf_eq_amp_cons t htne]
                simp only [List.isPrefixOf, beq_self_eq_true, Bool.true_and]
                rw [isPrefixOf_encodeStage_plain _ (expansionOf_tail_plain t htne)]
                rw [expansionOf_eq_amp_cons t htne] at hpre'
                simpa [List.isPrefixOf] using hpre'
              · rw [expansionOf_eq_amp_cons t htne]
                have hb : ('&' == c) = false := beq_eq_false_iff_ne.mpr (fun h => hamp h.symm)
                simp [List.isPrefixOf, hb]
            rw [hj, hkc, List.singleton_append, replaceAll_cons_neg _ _ _ _ hnp,
              ih cs hcs, List.singleton_append]
          · have hct : c = t := passIndex_inj c t (by omega) (by omega)
            subst hct
            have hj : encStage j c = expansionOf c := by rw [encStage, if_pos (by omega)]
            have hkc : encStage k c = [c] := by rw [encStage, if_neg (by omega)]
            rw [hj, hkc, replaceAll_head_match _ _ _ (expansionOf_ne_nil c), ih cs hcs]
          · have hcne : passIndex c ≠ 0 := by omega
            have htc : t ≠ c := fun h => by rw [h] at hk; omega
            have hj : encStage j c = expansionOf c := by rw [encStage, if_pos (by omega)]
            have hkc : encStage k c = expansionOf c := by rw [encStage, if_pos (by omega)]
            rw [hj, hkc,
              replaceAll_skip_chunk _ _ _ _
                (fun i hi => noCross t c htne hcne htc i hi _),
              ih cs hcs]
  exact main u.length u (Nat.le_refl _)

/-- For a string without a literal `&amp;`, decoding its encoded form and
decoding it directly agree: pass 1 turns the encoded form into the stage-1
encoding and is the identity on the plain form, and every later pass
commutes with the staged encodings. -/
theorem decode_htmlEncode_eq_decode (u : List Char)
    (hu : containsSub entAmp u = false) :
    decodeHtmlEntities (htmlEncode u) = decodeHtmlEntities u := by
  unfold decodeHtmlEntities htmlEncode
  rw [replaceAll_of_not_contains entAmp ['&'] u hu]
  rw [show entAmp = expansionOf '&' from by decide,
    show entLt = expansionOf '<' from by decide,
    show entGt = expansionOf '>' from by decide,
    show entQuot = expansionOf '"' from by decide,
    show entNum39 = expansionOf '\'' from by decide,
    show entX2F = expansionOf '/' from by decide]
  rw [pass_stage1 u,
    passk_comm 1 2 '<' (by decide) rfl (by omega) u,
    passk_comm 2 3 '>' (by decide) rfl (by omega) _,
    passk_comm 3 4 '"' (by decide) rfl (by omega) _,
    passk_comm 4 5 '\'' (by decide) rfl (by omega) _,
    passk_comm 5 6 '/' (by decide) rfl (by omega) _,
    encodeStage_six]

/-! ## C10 — entity decoding of the magnet argument -/

/-- C10 (amended): the start handler normalizes its magnet argument by
trimming and HTML-entity decoding, and for every magnet link `m` that does
not itself contain the literal string `&amp;`, starting with the
HTML-entity-encoded form of `m` behaves identically to starting with `m`:
the two requests produce the same result, the same final world and the
same effects.  (Only a literal `&amp;` is unrecoverable: the decoder's
later passes rescan the first pass's output, so literal `&lt;`, `&gt;`,
`&quot;`, `&#39;`, `&#x2F;` in `m` decode the same on both sides.) -/
theorem handleStart_encoded_equiv (m : List Char)
    (hm : containsSub entAmp m = false)
    (fresh : Bool) (h : TorrentHandle) (w : World) :
    handleStartTorrent (some (htmlEncode m)) fresh h w =
      handleStartTorrent (some m) fresh h w := by
  have hkey : decodeHtmlEntities (jsTrim (htmlEncode m)) = decodeHtmlEntities (jsTrim m) := by
    rw [jsTrim_htmlEncode]
    exact decode_htmlEncode_eq_decode (jsTrim m) (containsSub_jsTrim_false _ _ hm)
  unfold handleStartTorrent
  dsimp only
  rw [htmlEncode_isEmpty, hkey]

theorem handleStart_encoded_equiv_witness :
    containsSub entAmp ltMagnet = false ∧
    containsSub entLt ltMagnet = true ∧
    handleStartTorrent (some (htmlEncode ltMagnet)) false sampleHandle emptyWorld =
      handleStartTorrent (some ltMagnet) false sampleHandle emptyWorld :=
  ⟨by decide, by decide,
   handleStart_encoded_equiv ltMagnet (by decide) false sampleHandle emptyWorld⟩

/-- C10 counterexample: for the valid magnet whose display name contains a
literal `&amp;`, starting with its HTML-entity-encoded form does not
behave like starting with the magnet itself — the sequential decoder
collapses the doubly-encoded ampersand differently, so the two requests
hand different cleaned magnet URIs to the engine. -/
theorem handleStart_encoded_counterexample :
    handleStartTorrent (some (htmlEncode cexAmpMagnet)) false sampleHandle emptyWorld ≠
      handleStartTorrent (some cexAmpMagnet) false sampleHandle emptyWorld := by
  decide
